import Mathlib

/-!
Shallow embedding of the Bancho binary packet codec of this repository
(`app/packets/reader.py`, `app/packets/writer.py`, `app/packets/types.py`).

Modelling choices:
* a Python `bytes`/`bytearray` buffer is a `List Nat` (each element a byte value);
* the reader is the pair of its buffer and its cursor `offset : Nat`; every
  reading operation takes `(buf, off)` and returns its result together with the
  new offset;
* operations that can raise a Python exception (`struct.error`, `IndexError`,
  `AssertionError`, `UnicodeDecodeError`, `UnicodeEncodeError`) return `Option`,
  with `none` for the raising executions;
* a Python `str` is its list of Unicode code points (`List Nat`), so `len(s)`
  is the code-point count and `s.encode()` is explicit UTF-8 encoding;
* a Python `float` is represented by its IEEE-754 bit pattern as a `Nat`
  (no claim depends on float arithmetic, only on byte widths);
* `PacketID(x)` and `packet_id.value`: the `PacketID` enum lives in
  `app/packets/constants/packet_ids.py`, which is not part of the sources
  here. Modelled from the spec: packet semantics and the id enumeration are
  out of scope (spec §1), so the conversion is modelled as the identity on the
  `u16` id value.
-/

/-- Little-endian interpretation of a list of bytes, as `struct.unpack` with
formats `<H`, `<I`, `<Q` does on an exactly-sized slice. -/
def leDecode : List Nat → Nat
  | [] => 0
  | b :: bs => b + 256 * leDecode bs

/-- Little-endian encoding of `n` on `w` bytes, as `struct.pack` with formats
`<H`, `<I`, `<Q` produces for an in-range value. -/
def leEncode : Nat → Nat → List Nat
  | 0, _ => []
  | w + 1, n => n % 256 :: leEncode w (n / 256)

/-- Two's-complement reading of a `bits`-wide unsigned value as a signed
integer, as `struct.unpack` with formats `<b`, `<h`, `<i`, `<q` does. -/
def toSigned (bits : Nat) (n : Nat) : Int :=
  if n < 2 ^ (bits - 1) then (n : Int) else (n : Int) - 2 ^ bits

/-- Code points Python's UTF-8 codec accepts: everything below `0x110000`
except the surrogate range `0xD800`–`0xDFFF`. -/
def validCodePoint (c : Nat) : Bool :=
  decide (c < 0xD800 ∨ (0xE000 ≤ c ∧ c < 0x110000))

/-- UTF-8 bytes of one valid code point. -/
def utf8EncodeChar (c : Nat) : List Nat :=
  if c < 0x80 then [c]
  else if c < 0x800 then [0xC0 + c / 64, 0x80 + c % 64]
  else if c < 0x10000 then [0xE0 + c / 4096, 0x80 + c / 64 % 64, 0x80 + c % 64]
  else [0xF0 + c / 262144, 0x80 + c / 4096 % 64, 0x80 + c / 64 % 64, 0x80 + c % 64]

/-- Python's `str.encode()`: UTF-8 bytes of the code points, raising
(`none`) when some code point is a surrogate or out of range. -/
def pyEncodeUTF8 (s : List Nat) : Option (List Nat) :=
  if s.all validCodePoint then some (s.map utf8EncodeChar).flatten else none

/-- Python's strict `bytes.decode()` (UTF-8): code points of the bytes, with
`none` on any malformed sequence (bad lead byte, bad continuation byte,
overlong form, surrogate, value above `0x10FFFF`, or truncated sequence). -/
def utf8Decode : List Nat → Option (List Nat)
  | [] => some []
  | b :: rest =>
    if b < 0x80 then (utf8Decode rest).map (b :: ·)
    else if b < 0xC2 then none
    else if b < 0xE0 then
      match rest with
      | b1 :: rest1 =>
        if 0x80 ≤ b1 ∧ b1 < 0xC0 then
          (utf8Decode rest1).map (((b - 0xC0) * 64 + (b1 - 0x80)) :: ·)
        else none
      | [] => none
    else if b < 0xF0 then
      match rest with
      | b1 :: b2 :: rest2 =>
        if (if b = 0xE0 then 0xA0 ≤ b1 ∧ b1 < 0xC0
            else if b = 0xED then 0x80 ≤ b1 ∧ b1 < 0xA0
            else 0x80 ≤ b1 ∧ b1 < 0xC0) ∧ 0x80 ≤ b2 ∧ b2 < 0xC0 then
          (utf8Decode rest2).map
            (((b - 0xE0) * 4096 + (b1 - 0x80) * 64 + (b2 - 0x80)) :: ·)
        else none
      | _ => none
    else if b < 0xF5 then
      match rest with
      | b1 :: b2 :: b3 :: rest3 =>
        if (if b = 0xF0 then 0x90 ≤ b1 ∧ b1 < 0xC0
            else if b = 0xF4 then 0x80 ≤ b1 ∧ b1 < 0x90
            else 0x80 ≤ b1 ∧ b1 < 0xC0) ∧
           (0x80 ≤ b2 ∧ b2 < 0xC0) ∧ (0x80 ≤ b3 ∧ b3 < 0xC0) then
          (utf8Decode rest3).map
            (((b - 0xF0) * 262144 + (b1 - 0x80) * 4096 + (b2 - 0x80) * 64 +
              (b3 - 0x80)) :: ·)
        else none
      | _ => none
    else none

namespace BinaryReader

/-- `BinaryReader.read_bytes`: the slice `self._buffer[self._offset : self._offset + amount]`
paired with the unconditionally incremented offset. Python slicing truncates
silently, so the slice may be shorter than `amount`. -/
def read_bytes (buf : List Nat) (off amount : Nat) : List Nat × Nat :=
  ((buf.drop off).take amount, off + amount)

/-- `BinaryReader.skip` (and the private `__incr_offset`): increments the
offset by `x` and returns the new offset. -/
def skip (off x : Nat) : Nat := off + x

/-- Slice of exactly `w` bytes as `struct.unpack` requires: `none` (a raised
`struct.error`) when fewer than `w` bytes remain. -/
def readExact (buf : List Nat) (off w : Nat) : Option (List Nat × Nat) :=
  let r := read_bytes buf off w
  if r.1.length = w then some r else none

/-- `BinaryReader.read_u8`: `self.read_bytes(1)[0]`; the indexing raises
`IndexError` (`none`) on an empty slice. -/
def read_u8 (buf : List Nat) (off : Nat) : Option (Nat × Nat) :=
  match read_bytes buf off 1 with
  | ([], _) => none
  | (b :: _, off') => some (b, off')

/-- `BinaryReader.read_i8`: `struct.unpack("<b", self.read_bytes(1))`. -/
def read_i8 (buf : List Nat) (off : Nat) : Option (Int × Nat) :=
  (readExact buf off 1).map fun r => (toSigned 8 (leDecode r.1), r.2)

/-- `BinaryReader.read_u16`: `struct.unpack("<H", self.read_bytes(2))`. -/
def read_u16 (buf : List Nat) (off : Nat) : Option (Nat × Nat) :=
  (readExact buf off 2).map fun r => (leDecode r.1, r.2)

/-- `BinaryReader.read_i16`: `struct.unpack("<h", self.read_bytes(2))`. -/
def read_i16 (buf : List Nat) (off : Nat) : Option (Int × Nat) :=
  (readExact buf off 2).map fun r => (toSigned 16 (leDecode r.1), r.2)

/-- `BinaryReader.read_u32`: `struct.unpack("<I", self.read_bytes(4))`. -/
def read_u32 (buf : List Nat) (off : Nat) : Option (Nat × Nat) :=
  (readExact buf off 4).map fun r => (leDecode r.1, r.2)

/-- `BinaryReader.read_i32`: `struct.unpack("<i", self.read_bytes(4))`. -/
def read_i32 (buf : List Nat) (off : Nat) : Option (Int × Nat) :=
  (readExact buf off 4).map fun r => (toSigned 32 (leDecode r.1), r.2)

/-- `BinaryReader.read_u64`: `struct.unpack("<Q", self.read_bytes(8))`. -/
def read_u64 (buf : List Nat) (off : Nat) : Option (Nat × Nat) :=
  (readExact buf off 8).map fun r => (leDecode r.1, r.2)

/-- `BinaryReader.read_i64`: `struct.unpack("<q", self.read_bytes(8))`. -/
def read_i64 (buf : List Nat) (off : Nat) : Option (Int × Nat) :=
  (readExact buf off 8).map fun r => (toSigned 64 (leDecode r.1), r.2)

/-- `BinaryReader.read_f32`: `struct.unpack("<f", self.read_bytes(4))`; the
float value is represented by its 32-bit little-endian bit pattern. -/
def read_f32 (buf : List Nat) (off : Nat) : Option (Nat × Nat) :=
  (readExact buf off 4).map fun r => (leDecode r.1, r.2)

/-- `BinaryReader.read_osu_header`: `u16` packet id, an asserted-zero padding
byte (`AssertionError`, i.e. `none`, when non-zero), then the `u32` length. -/
def read_osu_header (buf : List Nat) (off : Nat) : Option ((Nat × Nat) × Nat) :=
  match read_u16 buf off with
  | none => none
  | some (packet_id, off1) =>
    match read_u8 buf off1 with
    | none => none
    | some (pad, off2) =>
      if pad = 0 then
        match read_u32 buf off2 with
        | none => none
        | some (packet_length, off3) => some ((packet_id, packet_length), off3)
      else none

/-- Accumulation loop of `BinaryReader.read_uleb128`. The first argument is
fuel bounding the number of iterations: the source loop reads one byte per
iteration and fails as soon as the buffer is exhausted, so `buf.length - off`
iterations always suffice and the fuel-0 branch coincides with the exhausted
read of the source (`read_uleb128` below supplies exactly that fuel). -/
def ulebLoopF : Nat → List Nat → Nat → Nat → Nat → Option (Nat × Nat)
  | 0, _, _, _, _ => none
  | fuel + 1, buf, off, val, shift =>
    match read_u8 buf off with
    | none => none
    | some (b, off') =>
      let val' := val ||| ((b &&& 0b01111111) <<< shift)
      if b &&& 0b10000000 = 0 then some (val', off')
      else ulebLoopF fuel buf off' val' (shift + 7)

/-- `BinaryReader.read_uleb128`: reads one byte; when it differs from the
marker `0x0B` the result is `0`, otherwise the 7-bit groups are accumulated
until a byte with a clear high bit. -/
def read_uleb128 (buf : List Nat) (off : Nat) : Option (Nat × Nat) :=
  match read_u8 buf off with
  | none => none
  | some (b, off1) =>
    if b ≠ 0x0B then some (0, off1)
    else ulebLoopF (buf.length - off1) buf off1 0 0

/-- `BinaryReader.read_str`: reads the existence byte (zero means the empty
string), then a ULEB128 length via `read_uleb128`, then that many bytes
decoded as UTF-8. -/
def read_str (buf : List Nat) (off : Nat) : Option (List Nat × Nat) :=
  match read_u8 buf off with
  | none => none
  | some (b, off1) =>
    if b = 0 then some ([], off1)
    else
      match read_uleb128 buf off1 with
      | none => none
      | some (length, off2) =>
        match read_bytes buf off2 length with
        | (bs, off3) =>
          match utf8Decode bs with
          | none => none
          | some s => some (s, off3)

/-- `BinaryReader.empty`: `self._offset + 1 >= len(self._buffer)`. -/
def empty (buf : List Nat) (off : Nat) : Bool :=
  decide (off + 1 ≥ buf.length)

/-- `BinaryReader.__next__`: `some none` is `StopIteration`, outer `none` is a
raised decoding error, `some (some ((id, length), off'))` yields a header.
The padding byte is skipped without inspection via `skip(1)`. -/
def next (buf : List Nat) (off : Nat) : Option (Option ((Nat × Nat) × Nat)) :=
  if empty buf off then some none
  else
    match read_u16 buf off with
    | none => none
    | some (packet_id, off1) =>
      match read_u32 buf (skip off1 1) with
      | none => none
      | some (length, off3) => some (some ((packet_id, length), off3))

/-- Iteration protocol of spec §4.1 over `__next__` with the caller skipping
each payload in full (`skip length` after each yielded header), collecting the
yielded `(packet_id, length)` pairs. The fuel bounds the number of steps: each
productive step moves the offset forward by at least the 7 header bytes and
requires `offset + 1 < buf.length`, so `buf.length + 1` steps always suffice
(`iterPackets` below supplies exactly that fuel). -/
def iterPacketsF : Nat → List Nat → Nat → Option (List (Nat × Nat))
  | 0, _, _ => none
  | fuel + 1, buf, off =>
    match next buf off with
    | none => none
    | some none => some []
    | some (some ((packet_id, length), off')) =>
      (iterPacketsF fuel buf (skip off' length)).map ((packet_id, length) :: ·)

/-- Driving the reader as an iterator, skipping every payload in full. -/
def iterPackets (buf : List Nat) (off : Nat) : Option (List (Nat × Nat)) :=
  iterPacketsF (buf.length + 1) buf off

end BinaryReader

/-- Wire type tags of `app/packets/types.py` (`SERIALISABLE_TYPES`): the eight
integer marker classes plus Python's `float` and `str`. -/
inductive WireType
  | tu8 | ti8 | tu16 | ti16 | tu32 | ti32 | tu64 | ti64 | tfloat | tstr
deriving DecidableEq

/-- Runtime values handed to the writers: a Python `int`, a Python `str`
(code points), or a Python `float` (its IEEE-754 bit pattern). -/
inductive PyVal
  | intVal (n : Int)
  | strVal (s : List Nat)
  | fltVal (bits : Nat)
deriving DecidableEq

namespace BinaryWriter

/-- `BinaryWriter.__init__`: the buffer starts as seven zero bytes
(`NULL_HEADER`) when `pralloc_header` holds, else empty. -/
def writerInit (pralloc_header : Bool) : List Nat :=
  if pralloc_header then List.replicate 7 0 else []

/-- Bytes appended by `bytearray.append(num)` in `write_u8`: raises
(`none`) unless `0 <= num < 256`. -/
def packU8 (num : Nat) : Option (List Nat) :=
  if num < 256 then some [num] else none

/-- Bytes of `struct.pack` for an unsigned `w`-byte format (`<H`, `<I`,
`<Q`): raises (`none`) when the value is out of range. -/
def packUInt (w num : Nat) : Option (List Nat) :=
  if num < 2 ^ (8 * w) then some (leEncode w num) else none

/-- Bytes of `struct.pack` for a signed `w`-byte format (`<b`, `<h`, `<i`,
`<q`): two's complement, raising (`none`) when out of range. -/
def packInt (w : Nat) (num : Int) : Option (List Nat) :=
  if -(2 ^ (8 * w - 1)) ≤ num ∧ num < 2 ^ (8 * w - 1) then
    some (leEncode w (num.emod (2 ^ (8 * w))).toNat)
  else none

/-- `BinaryWriter.write_u8`: appends the byte. -/
def write_u8 (buf : List Nat) (num : Nat) : Option (List Nat) :=
  (packU8 num).map (buf ++ ·)

/-- `BinaryWriter.write_i8`. -/
def write_i8 (buf : List Nat) (num : Int) : Option (List Nat) :=
  (packInt 1 num).map (buf ++ ·)

/-- `BinaryWriter.write_u16`. -/
def write_u16 (buf : List Nat) (num : Nat) : Option (List Nat) :=
  (packUInt 2 num).map (buf ++ ·)

/-- `BinaryWriter.write_i16`. -/
def write_i16 (buf : List Nat) (num : Int) : Option (List Nat) :=
  (packInt 2 num).map (buf ++ ·)

/-- `BinaryWriter.write_u32`. -/
def write_u32 (buf : List Nat) (num : Nat) : Option (List Nat) :=
  (packUInt 4 num).map (buf ++ ·)

/-- `BinaryWriter.write_i32`. -/
def write_i32 (buf : List Nat) (num : Int) : Option (List Nat) :=
  (packInt 4 num).map (buf ++ ·)

/-- `BinaryWriter.write_u64`. -/
def write_u64 (buf : List Nat) (num : Nat) : Option (List Nat) :=
  (packUInt 8 num).map (buf ++ ·)

/-- `BinaryWriter.write_i64`. -/
def write_i64 (buf : List Nat) (num : Int) : Option (List Nat) :=
  (packInt 8 num).map (buf ++ ·)

/-- `BinaryWriter.write_f32`: the float argument is its 32-bit IEEE-754 bit
pattern, appended little-endian. -/
def write_f32 (buf : List Nat) (bits : Nat) : Option (List Nat) :=
  (packUInt 4 bits).map (buf ++ ·)

/-- Loop of `BinaryWriter.write_uleb128` for `num != 0`: emit `num & 127`,
shift `num` right by 7, and set the high bit of the byte just emitted when
more groups follow. The fuel bounds the iterations: `num` strictly shrinks
under `>>> 7` while non-zero, so `num` iterations always suffice
(`uleb128Bytes` below supplies exactly that fuel). -/
def ulebCoreF : Nat → Nat → List Nat
  | 0, _ => []
  | fuel + 1, num =>
    let b := num &&& 127
    let num' := num >>> 7
    if num' = 0 then [b] else (b ||| 128) :: ulebCoreF fuel num'

/-- Bytes appended by `BinaryWriter.write_uleb128`: a single zero byte for
`num == 0`, else the 7-bit groups, least significant first. -/
def uleb128Bytes (num : Nat) : List Nat :=
  if num = 0 then [0] else ulebCoreF num num

/-- `BinaryWriter.write_uleb128` (infallible: every emitted byte is below
256). -/
def write_uleb128 (buf : List Nat) (num : Nat) : List Nat :=
  buf ++ uleb128Bytes num

/-- `BinaryWriter.write_raw`: appends the bytes verbatim. -/
def write_raw (buf contents : List Nat) : List Nat :=
  buf ++ contents

/-- `BinaryWriter.write_str`: existence byte `0x0B`, ULEB128 of `len(string)`
(the code-point count), then `string.encode()`; a single zero byte for the
empty string. `none` models a raised `UnicodeEncodeError`. -/
def write_str (buf : List Nat) (string : List Nat) : Option (List Nat) :=
  if string.isEmpty then some (buf ++ [0])
  else (pyEncodeUTF8 string).map fun bs =>
    buf ++ 0x0B :: (uleb128Bytes string.length ++ bs)

/-- `_READERS` / `_writer_from_type`: the encode dispatch table, mapping each
wire type tag to its writer method. Every `WireType` is registered, so the
`assert typ in _READERS` of `_writer_from_type` always passes; a value of the
wrong runtime type makes the resolved `struct.pack`/`append`/`encode` call
raise (`none`). -/
def writer_from_type (typ : WireType) : List Nat → PyVal → Option (List Nat) :=
  fun buf v =>
    match typ, v with
    | .tu8, .intVal n => if 0 ≤ n then write_u8 buf n.toNat else none
    | .ti8, .intVal n => write_i8 buf n
    | .tu16, .intVal n => if 0 ≤ n then write_u16 buf n.toNat else none
    | .ti16, .intVal n => write_i16 buf n
    | .tu32, .intVal n => if 0 ≤ n then write_u32 buf n.toNat else none
    | .ti32, .intVal n => write_i32 buf n
    | .tu64, .intVal n => if 0 ≤ n then write_u64 buf n.toNat else none
    | .ti64, .intVal n => write_i64 buf n
    | .tstr, .strVal s => write_str buf s
    | .tfloat, .fltVal bits => write_f32 buf bits
    | _, _ => none

/-- Loop body of `BinaryWriter.write_list`: `for elem in l: writer(self, elem)`. -/
def writeElems (typ : WireType) (buf : List Nat) : List PyVal → Option (List Nat)
  | [] => some buf
  | v :: vs =>
    match writer_from_type typ buf v with
    | none => none
    | some buf' => writeElems typ buf' vs

/-- `BinaryWriter.write_list`: the `u16` element count, then each element
written by the single writer resolved for the tag. -/
def write_list (buf : List Nat) (l : List PyVal) (typ : WireType) :
    Option (List Nat) :=
  match write_u16 buf l.length with
  | none => none
  | some buf1 => writeElems typ buf1 l

/-- `BinaryWriter.finish`: overwrites bytes `[0, 7)` with
`struct.pack("<HxI", packet_id, len(buffer) - 7)` and returns the buffer.
`none` models the `struct.error` raised when the id is not a `u16`, the
length does not fit a `u32`, or the buffer is shorter than the header (so
that `len(buffer) - 7` is negative). -/
def finish (buf : List Nat) (packet_id : Nat) : Option (List Nat) :=
  if packet_id < 65536 ∧ 7 ≤ buf.length ∧ buf.length - 7 < 4294967296 then
    some (leEncode 2 packet_id ++ 0 :: (leEncode 4 (buf.length - 7) ++ buf.drop 7))
  else none

end BinaryWriter

/-- Encoding of one well-formed packet as claim C5 describes it: a 7-byte
header (little-endian `u16` id, zero padding byte, little-endian `u32`
payload length) followed by exactly that many payload bytes. -/
def encodePacket (packet_id : Nat) (payload : List Nat) : List Nat :=
  leEncode 2 packet_id ++ 0 :: (leEncode 4 payload.length ++ payload)

/-! Helper lemmas about the byte-level primitives. -/

@[simp] theorem leEncode_length (w n : Nat) : (leEncode w n).length = w := by
  induction w generalizing n with
  | zero => rfl
  | succ w ih => simp [leEncode, ih]

theorem leDecode_leEncode (w n : Nat) (h : n < 2 ^ (8 * w)) :
    leDecode (leEncode w n) = n := by
  induction w generalizing n with
  | zero =>
    have : n = 0 := by simpa using h
    simp [leEncode, leDecode, this]
  | succ w ih =>
    have h2 : n < 2 ^ (8 * w) * 256 := by
      have : 2 ^ (8 * (w + 1)) = 2 ^ (8 * w) * 256 := by
        rw [Nat.mul_succ, pow_add]; norm_num
      omega
    have h' : n / 256 < 2 ^ (8 * w) :=
      (Nat.div_lt_iff_lt_mul (by norm_num)).mpr h2
    rw [leEncode, leDecode, ih _ h']
    omega

theorem take_one_drop (buf : List Nat) (k : Nat) (h : k < buf.length) :
    (buf.drop k).take 1 = [buf.getD k 0] := by
  induction buf generalizing k with
  | nil => simp at h
  | cons b bs ih =>
    cases k with
    | zero => simp
    | succ k =>
      simp only [List.drop_succ_cons, List.getD_cons_succ]
      exact ih k (by simpa using h)

namespace BinaryReader

theorem readExact_append (buf pre mid post : List Nat) (off w : Nat)
    (hbuf : buf = pre ++ (mid ++ post)) (hoff : off = pre.length)
    (hw : mid.length = w) :
    readExact buf off w = some (mid, off + w) := by
  subst hbuf hoff hw
  simp [readExact, read_bytes]

theorem read_u8_append (buf pre post : List Nat) (b off : Nat)
    (hbuf : buf = pre ++ b :: post) (hoff : off = pre.length) :
    read_u8 buf off = some (b, off + 1) := by
  subst hbuf hoff
  simp [read_u8, read_bytes]

theorem read_u16_append (buf pre mid post : List Nat) (off : Nat)
    (hbuf : buf = pre ++ (mid ++ post)) (hoff : off = pre.length)
    (hw : mid.length = 2) :
    read_u16 buf off = some (leDecode mid, off + 2) := by
  rw [read_u16, readExact_append buf pre mid post off 2 hbuf hoff hw]
  rfl

theorem read_u32_append (buf pre mid post : List Nat) (off : Nat)
    (hbuf : buf = pre ++ (mid ++ post)) (hoff : off = pre.length)
    (hw : mid.length = 4) :
    read_u32 buf off = some (leDecode mid, off + 4) := by
  rw [read_u32, readExact_append buf pre mid post off 4 hbuf hoff hw]
  rfl

theorem readExact_of_le (buf : List Nat) (off w : Nat)
    (h : off + w ≤ buf.length) :
    readExact buf off w = some ((buf.drop off).take w, off + w) := by
  have hlen : ((buf.drop off).take w).length = w := by
    simp only [List.length_take, List.length_drop]
    omega
  simp [readExact, read_bytes, hlen]

theorem readExact_eq_none_iff (buf : List Nat) (off w : Nat) (hw : 0 < w) :
    readExact buf off w = none ↔ buf.length < off + w := by
  have hlen : ((buf.drop off).take w).length = min w (buf.length - off) := by
    simp [List.length_take, List.length_drop]
  constructor
  · intro h
    by_contra hc
    rw [readExact_of_le buf off w (by omega)] at h
    exact Option.noConfusion h
  · intro h
    have hne : ((buf.drop off).take w).length ≠ w := by rw [hlen]; omega
    simp only [readExact, read_bytes, if_neg hne]

theorem read_u8_eq_none_iff (buf : List Nat) (off : Nat) :
    read_u8 buf off = none ↔ buf.length < off + 1 := by
  by_cases h : off < buf.length
  · rw [read_u8, read_bytes, take_one_drop buf off h]
    simp
    omega
  · have hnil : buf.drop off = [] := List.drop_eq_nil_of_le (by omega)
    rw [read_u8, read_bytes, hnil]
    simp
    omega

theorem mapped_readExact_eq_none_iff {β : Type} (f : List Nat × Nat → β)
    (buf : List Nat) (off w : Nat) (hw : 0 < w) :
    (readExact buf off w).map f = none ↔ buf.length < off + w := by
  rw [← readExact_eq_none_iff buf off w hw]
  cases readExact buf off w <;> simp

end BinaryReader

theorem drop_len_append (a b : List Nat) : (a ++ b).drop a.length = b := by
  simp

theorem leDecode_leEncode2 (n : Nat) (h : n < 65536) :
    leDecode (leEncode 2 n) = n :=
  leDecode_leEncode 2 n (by norm_num; omega)

theorem leDecode_leEncode4 (n : Nat) (h : n < 4294967296) :
    leDecode (leEncode 4 n) = n :=
  leDecode_leEncode 4 n (by norm_num; omega)

open BinaryReader BinaryWriter

/-! Claim theorems. -/

/-- C1 (code bug): the string round-trip fails on non-empty strings. For
`s = "A"`, `write_str` emits `[0x0B, 0x01, 0x41]`, but `read_str` on those
bytes returns the empty string (after the existence byte, `read_uleb128`
re-checks the length byte `0x01` against the marker `0x0B` and yields length
`0`), so decoding does not return `s`. The empty-string half of the claim
does hold. -/
theorem c1_string_roundtrip_failure :
    write_str [] [65] = some [11, 1, 65] ∧
    read_str [11, 1, 65] 0 = some ([], 2) ∧
    ([] : List Nat) ≠ [65] ∧
    write_str [] [] = some [0] ∧
    read_str [0] 0 = some ([], 1) := by decide

/-- C2 (code bug): the ULEB128 round-trip fails for every listed value except
`0`: `write_uleb128 1 = [0x01]`, but `read_uleb128` on `[0x01]` returns `0`
because the first byte is not the marker `0x0B`. The encoded-length half of
the claim (`ceil(bits/7)`, minimum 1) does hold at all six values. -/
theorem c2_uleb128_roundtrip_failure :
    write_uleb128 [] 0 = [0] ∧ read_uleb128 [0] 0 = some (0, 1) ∧
    write_uleb128 [] 1 = [1] ∧ read_uleb128 [1] 0 = some (0, 1) ∧
    (0 : Nat) ≠ 1 ∧
    (write_uleb128 [] 127).length = 1 ∧
    (write_uleb128 [] 128).length = 2 ∧
    (write_uleb128 [] 16384).length = 3 ∧
    (write_uleb128 [] 4294967295).length = 5 := by decide

/-- C3 (counterexample): for the one-character string `"é"` (code point 233,
UTF-8 bytes `[0xC3, 0xA9]`), `write_str` emits the length byte `1` (the
code-point count), not `2` (the UTF-8 byte count) as the claim states. -/
theorem c3_length_prefix_counterexample :
    pyEncodeUTF8 [233] = some [195, 169] ∧
    write_str [] [233] ≠ some ([11] ++ uleb128Bytes 2 ++ [195, 169]) := by
  decide

/-- C3 (amended): for non-empty `s`, `write_str` appends exactly
`[0x0B] ++ uleb128(len(s)) ++ utf8(s)` where `len(s)` is the number of
characters (code points) of `s` — equal to the UTF-8 byte count only when
`s` is ASCII — and for empty `s` it appends exactly `[0x00]`. -/
theorem c3_write_str_format (buf s bs : List Nat) (hne : s ≠ [])
    (henc : pyEncodeUTF8 s = some bs) :
    write_str buf s = some (buf ++ [11] ++ uleb128Bytes s.length ++ bs) ∧
    write_str buf [] = some (buf ++ [0]) := by
  constructor
  · have hempty : ¬ (s.isEmpty = true) := by
      cases s with
      | nil => exact absurd rfl hne
      | cons a l => simp
    rw [write_str, if_neg hempty, henc]
    simp
  · rw [write_str]
    simp

theorem c3_write_str_format_witness :
    write_str [] [104, 105] = some ([] ++ [11] ++ uleb128Bytes 2 ++ [104, 105]) ∧
    write_str [] [] = some ([] ++ [0]) :=
  c3_write_str_format [] [104, 105] [104, 105] (by decide) (by decide)

/-- C6 (counterexample): the cursor invariant `offset <= len(buffer)` fails:
on the one-byte buffer `[0]`, `read_bytes` with `amount = 2` leaves the
offset at `2 > 1`. -/
theorem c6_offset_bound_counterexample :
    ¬ ((read_bytes [0] 0 2).2 ≤ ([0] : List Nat).length) := by decide

/-- C6 (amended): the offset starts at 0 and is never decremented — each
`read_bytes`/`skip` with a (nonnegative) amount advances it by exactly that
amount — and `0 <= offset` always holds; but `offset <= len(buffer)` is
preserved only when the request does not exceed the remaining bytes, in which
case the bytes consumed equal the amount requested. An over-read advances
the offset past `len(buffer)`. -/
theorem c6_cursor_monotone (buf : List Nat) (off n : Nat) :
    (read_bytes buf off n).2 = off + n ∧
    off ≤ (read_bytes buf off n).2 ∧
    skip off n = off + n ∧
    off ≤ skip off n ∧
    (off + n ≤ buf.length →
      (read_bytes buf off n).2 ≤ buf.length ∧
      ((read_bytes buf off n).1).length = n) := by
  refine ⟨rfl, Nat.le_add_right _ _, rfl, Nat.le_add_right _ _, fun h => ⟨h, ?_⟩⟩
  simp only [read_bytes, List.length_take, List.length_drop]
  omega

theorem c6_cursor_monotone_witness :
    (read_bytes [5, 6] 0 2).2 ≤ ([5, 6] : List Nat).length ∧
    ((read_bytes [5, 6] 0 2).1).length = 2 :=
  (c6_cursor_monotone [5, 6] 0 2).2.2.2.2 (by decide)

/-- C4: on a writer built with header pre-reservation holding payload `P`,
`finish` produces `le16(id) ++ [0] ++ le32(len(P)) ++ P`; `read_osu_header`
on that buffer returns `(id, len(P))` at offset 7, and the rest is `P`. -/
theorem c4_header_roundtrip (P : List Nat) (pid : Nat)
    (h1 : pid < 65536) (h2 : P.length < 4294967296) :
    finish (write_raw (writerInit true) P) pid =
      some (leEncode 2 pid ++ 0 :: (leEncode 4 P.length ++ P)) ∧
    read_osu_header (leEncode 2 pid ++ 0 :: (leEncode 4 P.length ++ P)) 0 =
      some ((pid, P.length), 7) ∧
    (leEncode 2 pid ++ 0 :: (leEncode 4 P.length ++ P)).drop 7 = P := by
  have e1 : write_raw (writerInit true) P = 0 :: 0 :: 0 :: 0 :: 0 :: 0 :: 0 :: P := rfl
  have e2 : (write_raw (writerInit true) P).length = 7 + P.length := by
    rw [e1]; simp; omega
  refine ⟨?_, ?_, ?_⟩
  · rw [finish, e2, if_pos (by omega)]
    have e3 : 7 + P.length - 7 = P.length := by omega
    have e4 : (write_raw (writerInit true) P).drop 7 = P := by rw [e1]; rfl
    rw [e3, e4]
  · have hu16 : read_u16 (leEncode 2 pid ++ 0 :: (leEncode 4 P.length ++ P)) 0 =
        some (pid, 2) := by
      rw [read_u16_append _ [] (leEncode 2 pid) (0 :: (leEncode 4 P.length ++ P))
            0 (by simp) rfl (by simp),
          leDecode_leEncode2 pid h1]
    have hu8 : read_u8 (leEncode 2 pid ++ 0 :: (leEncode 4 P.length ++ P)) 2 =
        some (0, 3) := by
      rw [read_u8_append _ (leEncode 2 pid) (leEncode 4 P.length ++ P) 0 2
            rfl (by simp)]
    have hu32 : read_u32 (leEncode 2 pid ++ 0 :: (leEncode 4 P.length ++ P)) 3 =
        some (P.length, 7) := by
      rw [read_u32_append _ (leEncode 2 pid ++ [0]) (leEncode 4 P.length) P 3
            (by simp) (by simp) (by simp),
          leDecode_leEncode4 _ h2]
    simp only [read_osu_header, hu16, hu8, hu32, if_pos]
  · have e5 : leEncode 2 pid ++ 0 :: (leEncode 4 P.length ++ P) =
        (leEncode 2 pid ++ 0 :: leEncode 4 P.length) ++ P := by simp
    have e6 : (7 : Nat) = (leEncode 2 pid ++ 0 :: leEncode 4 P.length).length := by
      simp
    rw [e5, e6, drop_len_append]

theorem c4_header_roundtrip_witness :
    finish (write_raw (writerInit true) [9]) 3 = some [3, 0, 0, 1, 0, 0, 0, 9] ∧
    read_osu_header [3, 0, 0, 1, 0, 0, 0, 9] 0 = some ((3, 1), 7) ∧
    ([3, 0, 0, 1, 0, 0, 0, 9] : List Nat).drop 7 = [9] :=
  c4_header_roundtrip [9] 3 (by decide) (by decide)

/-- C8: with at least 7 bytes remaining, `read_osu_header` fails exactly when
the padding byte (the third byte read) is non-zero; with zero padding it
returns the little-endian `u16` id and the little-endian `u32` length and
advances to `off + 7`. The lenient iterator step `__next__` skips the padding
byte without inspecting it and yields the same pair regardless of padding. -/
theorem c8_header_strictness (buf : List Nat) (off : Nat)
    (h : off + 7 ≤ buf.length) :
    (read_osu_header buf off = none ↔ buf.getD (off + 2) 0 ≠ 0) ∧
    (buf.getD (off + 2) 0 = 0 →
      read_osu_header buf off =
        some ((leDecode ((buf.drop off).take 2),
               leDecode ((buf.drop (off + 3)).take 4)), off + 7)) ∧
    BinaryReader.next buf off =
      some (some ((leDecode ((buf.drop off).take 2),
                   leDecode ((buf.drop (off + 3)).take 4)), off + 7)) := by
  have hu16 : read_u16 buf off =
      some (leDecode ((buf.drop off).take 2), off + 2) := by
    rw [read_u16, readExact_of_le buf off 2 (by omega)]; rfl
  have hu8 : read_u8 buf (off + 2) = some (buf.getD (off + 2) 0, off + 3) := by
    rw [read_u8, read_bytes, take_one_drop buf (off + 2) (by omega)]
  have hu32 : read_u32 buf (off + 3) =
      some (leDecode ((buf.drop (off + 3)).take 4), off + 7) := by
    rw [read_u32, readExact_of_le buf (off + 3) 4 (by omega)]; rfl
  have hemp : empty buf off = false := by
    simp only [empty, decide_eq_false_iff_not]
    omega
  refine ⟨?_, ?_, ?_⟩
  · by_cases hpad : buf.getD (off + 2) 0 = 0
    · simp only [read_osu_header, hu16, hu8, hu32, if_pos hpad]
      simp only [Option.some_ne_none, false_iff, not_not]
      exact hpad
    · simp only [read_osu_header, hu16, hu8, if_neg hpad]
      simp only [true_iff]
      exact hpad
  · intro hpad
    simp only [read_osu_header, hu16, hu8, hu32, if_pos hpad]
  · simp only [next, hemp, Bool.false_eq_true, if_false, hu16]
    have hskip : skip (off + 2) 1 = off + 3 := rfl
    simp only [hskip, hu32]

theorem c8_header_strictness_witness :
    read_osu_header [1, 0, 0, 2, 0, 0, 0] 0 = some ((1, 2), 7) ∧
    BinaryReader.next [1, 0, 0, 2, 0, 0, 0] 0 = some (some ((1, 2), 7)) :=
  ⟨(c8_header_strictness [1, 0, 0, 2, 0, 0, 0] 0 (by decide)).2.1 (by decide),
   (c8_header_strictness [1, 0, 0, 2, 0, 0, 0] 0 (by decide)).2.2⟩

/-- C10 (counterexample): on `[1, 0x0B, 2, 0xC3]` the marker byte is non-zero
and the decoded length 2 exceeds the single remaining byte, yet `read_str`
fails (the truncated tail `[0xC3]` is not valid UTF-8, so the decode raises)
instead of returning a silently truncated string as the claim states. -/
theorem c10_invalid_utf8_counterexample :
    read_str [1, 11, 2, 195] 0 = none ∧
    read_uleb128 [1, 11, 2, 195] 1 = some (2, 3) ∧
    ([1, 11, 2, 195] : List Nat).length < 3 + 2 := by decide

/-- C10 (amended): when the requested amount exceeds the remaining bytes,
`read_bytes` returns just the remaining bytes without error while still
advancing the offset by the full amount, leaving it strictly past
`len(buffer)`; hence `read_str`, given a non-zero marker and a decoded
length exceeding the remaining bytes, never fails for lack of data: it
returns the string of whatever bytes remain whenever those bytes are valid
UTF-8 (failing only with a UTF-8 decode error otherwise). -/
theorem c10_overread_truncation (buf : List Nat)
    (off amount b off1 length off2 : Nat) (s : List Nat) :
    (buf.length < off + amount →
      read_bytes buf off amount = (buf.drop off, off + amount) ∧
      buf.length < (read_bytes buf off amount).2) ∧
    (read_u8 buf off = some (b, off1) → b ≠ 0 →
      read_uleb128 buf off1 = some (length, off2) →
      buf.length < off2 + length →
      utf8Decode (buf.drop off2) = some s →
      read_str buf off = some (s, off2 + length) ∧
      buf.length < off2 + length) := by
  constructor
  · intro h
    have htake : (buf.drop off).take amount = buf.drop off := by
      apply List.take_of_length_le
      simp only [List.length_drop]
      omega
    exact ⟨by rw [read_bytes, htake], by rw [read_bytes]; exact h⟩
  · intro h1 h2 h3 h4 h5
    have htake : (buf.drop off2).take length = buf.drop off2 := by
      apply List.take_of_length_le
      simp only [List.length_drop]
      omega
    refine ⟨?_, h4⟩
    simp only [read_str, h1, if_neg h2, h3, read_bytes, htake, h5]

theorem c10_overread_truncation_witness :
    read_bytes [7, 11, 5, 65] 0 9 = ([7, 11, 5, 65], 9) ∧
    ([7, 11, 5, 65] : List Nat).length < (read_bytes [7, 11, 5, 65] 0 9).2 ∧
    read_str [7, 11, 5, 65] 0 = some ([65], 8) ∧
    ([7, 11, 5, 65] : List Nat).length < 8 :=
  have h := c10_overread_truncation [7, 11, 5, 65] 0 9 7 1 5 3 [65]
  have ha := h.1 (by decide)
  have hb := h.2 (by decide) (by decide) (by decide) (by decide) (by decide)
  ⟨ha.1, ha.2, hb.1, hb.2⟩

/-- Per-element byte production: the bytes the encoder resolved for `typ`
appends for one value, computed on an empty buffer. -/
def encodeElems (typ : WireType) : List PyVal → Option (List (List Nat))
  | [] => some []
  | v :: vs =>
    match writer_from_type typ [] v, encodeElems typ vs with
    | some e, some es => some (e :: es)
    | _, _ => none

theorem writer_from_type_append (typ : WireType) (buf : List Nat) (v : PyVal) :
    writer_from_type typ buf v =
      (writer_from_type typ [] v).map (buf ++ ·) := by
  have hmap : ∀ (o : Option (List Nat)) (f : List Nat → List Nat),
      (o.map f).map (buf ++ ·) = o.map (fun x => buf ++ f x) := by
    intro o f; cases o <;> rfl
  cases typ <;> cases v <;>
    simp only [writer_from_type, write_u8, write_i8, write_u16, write_i16,
      write_u32, write_i32, write_u64, write_i64, write_f32, write_str]
  all_goals try rfl
  all_goals try (rw [hmap]; simp)
  all_goals split_ifs <;> first | rfl | (rw [hmap]; simp)

theorem writeElems_eq (typ : WireType) (l : List PyVal) :
    ∀ (buf : List Nat) (es : List (List Nat)),
      encodeElems typ l = some es →
      writeElems typ buf l = some (buf ++ es.flatten) := by
  induction l with
  | nil =>
    intro buf es h
    simp only [encodeElems] at h
    cases h
    simp [writeElems]
  | cons v vs ih =>
    intro buf es h
    simp only [encodeElems] at h
    cases h1 : writer_from_type typ [] v with
    | none => rw [h1] at h; exact absurd h (by simp)
    | some e =>
      rw [h1] at h
      cases h2 : encodeElems typ vs with
      | none => rw [h2] at h; exact absurd h (by simp)
      | some es' =>
        rw [h2] at h
        simp only [Option.some.injEq] at h
        subst h
        simp only [writeElems, writer_from_type_append typ buf v, h1,
          Option.map_some']
        rw [ih (buf ++ e) es' h2]
        simp

/-- C9: for a list of at most 65535 elements whose every element encodes
successfully under the single encoder resolved for the tag, `write_list`
appends exactly the little-endian `u16` element count followed by the
concatenation, in list order, of the per-element encodings. -/
theorem c9_write_list (buf : List Nat) (l : List PyVal) (typ : WireType)
    (es : List (List Nat)) (h1 : l.length ≤ 65535)
    (h2 : encodeElems typ l = some es) :
    write_list buf l typ = some (buf ++ leEncode 2 l.length ++ es.flatten) := by
  have hu16 : write_u16 buf l.length = some (buf ++ leEncode 2 l.length) := by
    rw [write_u16, packUInt, if_pos (by norm_num; omega)]
    rfl
  simp only [write_list, hu16]
  rw [writeElems_eq typ l (buf ++ leEncode 2 l.length) es h2]

theorem c9_write_list_witness :
    write_list [] [PyVal.intVal 1, PyVal.intVal 2] WireType.tu16 =
      some ([] ++ leEncode 2 2 ++ ([[1, 0], [2, 0]] : List (List Nat)).flatten) :=
  c9_write_list [] [PyVal.intVal 1, PyVal.intVal 2] WireType.tu16
    [[1, 0], [2, 0]] (by decide) (by decide)

theorem next_packet (buf pre pl rest : List Nat) (pid off : Nat)
    (hbuf : buf = pre ++ (encodePacket pid pl ++ rest))
    (hoff : off = pre.length)
    (h1 : pid < 65536) (h2 : pl.length < 4294967296) :
    BinaryReader.next buf off = some (some ((pid, pl.length), off + 7)) := by
  subst hbuf hoff
  have hlen : (pre ++ (encodePacket pid pl ++ rest)).length =
      pre.length + 7 + pl.length + rest.length := by
    simp [encodePacket]
    omega
  have hemp : empty (pre ++ (encodePacket pid pl ++ rest)) pre.length = false := by
    simp only [empty, decide_eq_false_iff_not, hlen]
    omega
  have hb1 : pre ++ (encodePacket pid pl ++ rest) =
      pre ++ (leEncode 2 pid ++ (0 :: (leEncode 4 pl.length ++ (pl ++ rest)))) := by
    simp [encodePacket]
  have hu16 : read_u16 (pre ++ (encodePacket pid pl ++ rest)) pre.length =
      some (pid, pre.length + 2) := by
    rw [read_u16_append _ pre (leEncode 2 pid)
          (0 :: (leEncode 4 pl.length ++ (pl ++ rest))) pre.length hb1 rfl (by simp),
        leDecode_leEncode2 pid h1]
  have hb2 : pre ++ (encodePacket pid pl ++ rest) =
      (pre ++ (leEncode 2 pid ++ [0])) ++ (leEncode 4 pl.length ++ (pl ++ rest)) := by
    simp [encodePacket]
  have hu32 : read_u32 (pre ++ (encodePacket pid pl ++ rest)) (pre.length + 3) =
      some (pl.length, pre.length + 7) := by
    rw [read_u32_append _ (pre ++ (leEncode 2 pid ++ [0])) (leEncode 4 pl.length)
          (pl ++ rest) (pre.length + 3) hb2 (by simp) (by simp),
        leDecode_leEncode4 _ h2]
  simp only [next, hemp, Bool.false_eq_true, if_false, hu16]
  have hskip : skip (pre.length + 2) 1 = pre.length + 3 := rfl
  simp only [hskip, hu32]

theorem encodePacket_length (pid : Nat) (pl : List Nat) :
    (encodePacket pid pl).length = 7 + pl.length := by
  simp [encodePacket]
  omega

theorem packets_length_le (ps : List (Nat × List Nat)) :
    ps.length ≤ ((ps.map fun p => encodePacket p.1 p.2).flatten).length := by
  induction ps with
  | nil => simp
  | cons p tl ih =>
    simp only [List.map_cons, List.flatten_cons, List.length_append,
      List.length_cons, encodePacket_length]
    omega

theorem iterPacketsF_wellformed (ps : List (Nat × List Nat)) :
    ∀ (fuel : Nat) (pre : List Nat),
      (∀ p ∈ ps, p.1 < 65536 ∧ p.2.length < 4294967296) →
      ps.length < fuel →
      iterPacketsF fuel (pre ++ (ps.map fun p => encodePacket p.1 p.2).flatten)
        pre.length = some (ps.map fun p => (p.1, p.2.length)) := by
  induction ps with
  | nil =>
    intro fuel pre _ hf
    cases fuel with
    | zero => simp at hf
    | succ fuel =>
      simp only [List.map_nil, List.flatten_nil, List.append_nil, iterPacketsF]
      have hemp : empty pre pre.length = true := by simp [empty]
      simp [next, hemp]
  | cons p tl ih =>
    intro fuel pre h hf
    cases fuel with
    | zero => simp at hf
    | succ fuel =>
      obtain ⟨hp1, hp2⟩ := h p (by simp)
      have hnext := next_packet
        (pre ++ (encodePacket p.1 p.2 ++
          (tl.map fun q => encodePacket q.1 q.2).flatten))
        pre p.2 ((tl.map fun q => encodePacket q.1 q.2).flatten) p.1 pre.length
        rfl rfl hp1 hp2
      simp only [List.map_cons, List.flatten_cons, iterPacketsF, hnext]
      have hoff : skip (pre.length + 7) p.2.length =
          (pre ++ encodePacket p.1 p.2).length := by
        simp only [skip, List.length_append, encodePacket_length]
        omega
      have hbuf2 : pre ++ (encodePacket p.1 p.2 ++
          (tl.map fun q => encodePacket q.1 q.2).flatten) =
          (pre ++ encodePacket p.1 p.2) ++
            (tl.map fun q => encodePacket q.1 q.2).flatten := by
        simp
      have htl : tl.length < fuel := by
        have := hf
        simp only [List.length_cons] at this
        omega
      rw [hoff, hbuf2, ih fuel (pre ++ encodePacket p.1 p.2)
            (fun q hq => h q (by simp [hq])) htl]
      simp

/-- C5: a reader over `n` concatenated well-formed packets (7-byte header
with zero padding and in-range id, followed by exactly the declared number
of payload bytes), iterated while skipping each payload in full, yields
exactly the `n` `(packet_id, payload_length)` pairs in order and then
stops. -/
theorem c5_iteration (ps : List (Nat × List Nat))
    (h : ∀ p ∈ ps, p.1 < 65536 ∧ p.2.length < 4294967296) :
    iterPackets ((ps.map fun p => encodePacket p.1 p.2).flatten) 0 =
      some (ps.map fun p => (p.1, p.2.length)) := by
  have hfuel : ps.length <
      ((ps.map fun p => encodePacket p.1 p.2).flatten).length + 1 :=
    Nat.lt_succ_of_le (packets_length_le ps)
  have := iterPacketsF_wellformed ps
    (((ps.map fun p => encodePacket p.1 p.2).flatten).length + 1) [] h hfuel
  simpa [iterPackets] using this

theorem c5_iteration_witness :
    iterPackets ((([((1 : Nat), [(5 : Nat)]), (2, [])]).map fun p =>
      encodePacket p.1 p.2).flatten) 0 = some [(1, 1), (2, 0)] :=
  c5_iteration [(1, [5]), (2, [])] (by decide)

/-- C7: each fixed-width primitive decoder returns an error exactly when
fewer bytes remain than its width (1/1/2/2/4/4/8/8/4 bytes), never a
zero-filled or truncated value; `read_u8` on the empty buffer fails, and
`read_str` on `[0x00]` returns the empty string at offset 1. -/
theorem c7_fixed_width_out_of_data (buf : List Nat) (off : Nat) :
    (read_u8 buf off = none ↔ buf.length < off + 1) ∧
    (read_i8 buf off = none ↔ buf.length < off + 1) ∧
    (read_u16 buf off = none ↔ buf.length < off + 2) ∧
    (read_i16 buf off = none ↔ buf.length < off + 2) ∧
    (read_u32 buf off = none ↔ buf.length < off + 4) ∧
    (read_i32 buf off = none ↔ buf.length < off + 4) ∧
    (read_u64 buf off = none ↔ buf.length < off + 8) ∧
    (read_i64 buf off = none ↔ buf.length < off + 8) ∧
    (read_f32 buf off = none ↔ buf.length < off + 4) ∧
    read_u8 ([] : List Nat) 0 = none ∧
    read_str [0] 0 = some ([], 1) :=
  ⟨read_u8_eq_none_iff buf off,
   mapped_readExact_eq_none_iff _ buf off 1 (by norm_num),
   mapped_readExact_eq_none_iff _ buf off 2 (by norm_num),
   mapped_readExact_eq_none_iff _ buf off 2 (by norm_num),
   mapped_readExact_eq_none_iff _ buf off 4 (by norm_num),
   mapped_readExact_eq_none_iff _ buf off 4 (by norm_num),
   mapped_readExact_eq_none_iff _ buf off 8 (by norm_num),
   mapped_readExact_eq_none_iff _ buf off 8 (by norm_num),
   mapped_readExact_eq_none_iff _ buf off 4 (by norm_num),
   by decide, by decide⟩
